import Mathlib

/-!
Verification development for a hybrid retrieval engine: structural chunking,
a lexical (BM25 over SQLite FTS5) index, a semantic (vector) index, weighted
reciprocal rank fusion with a strong-signal short-circuit, and a
position-aware score blend.

Modelling conventions.  Python floats carrying relevance scores are modelled
as exact rationals; Python strings are modelled as lists of characters where
slicing arithmetic matters and as Lean strings where only identity matters;
Python dicts keyed by strings are modelled as insertion-ordered association
lists; the SQLite and LanceDB tables are modelled as row lists; external
effects (content hashing, embedding calls, store queries) are parameters of
the functions that perform them.
-/

namespace AIMidLayer

/-- Model of knowledge.models.Chunk.  The pydantic default uuid4 id is
modelled as the empty string when a chunk is built without an explicit id
(the id is opaque to all verified code paths except the fusion fallback
key); the open metadata map is omitted, since no verified code path reads
it.  Offsets are Python ints, hence integers here: the sliding-window
chunker can emit a negative start offset when the next window start
end - overlap goes below zero. -/
structure Chunk where
  id : String
  doc_id : String
  content : List Char
  start_idx : Int
  end_idx : Int
deriving DecidableEq

/-- Model of knowledge.models.SearchResult, scores as exact rationals.  The
optional source document enrichment is omitted. -/
structure SearchResult where
  chunk : Chunk
  score : ℚ
deriving DecidableEq

/-- Model of knowledge.models.Document restricted to the fields the indexing
paths read; raw bytes, timestamps, metadata and the cached chunk list are
omitted. -/
structure Document where
  id : String
  source_path : String
  file_name : String
  file_type : String
  content : List Char
deriving DecidableEq

/-- Model of rag.fusion.FusionResult. -/
structure FusionResult where
  result : SearchResult
  rrf_score : ℚ
  sources : List String
  is_top_rank : Bool
deriving DecidableEq

/-- Dedup key used by reciprocal_rank_fusion: the chunk id, or the
doc id and start offset when the id is the empty string (Python or on a
falsy string). -/
def fusionKey (c : Chunk) : String :=
  if c.id = "" then c.doc_id ++ "_" ++ toString c.start_idx else c.id

/-- The mutation of the stored FusionResult performed by the fusion loop for
one (rank, result) occurrence in list number list_idx: add the weighted RRF
contribution, append the source name, then add the rank-0 bonus or the top-3
bonus for this occurrence. -/
def rrfUpd (weight : ℚ) (k list_idx rank : Nat) (tb t3 : ℚ)
    (fr : FusionResult) : FusionResult :=
  let fr1 : FusionResult :=
    { fr with
      rrf_score := fr.rrf_score + weight / ((k : ℚ) + (rank : ℚ) + 1)
      sources := fr.sources ++ ["list_" ++ toString list_idx] }
  if rank = 0 then
    { fr1 with rrf_score := fr1.rrf_score + tb, is_top_rank := true }
  else if rank < 3 then
    { fr1 with rrf_score := fr1.rrf_score + t3 }
  else fr1

/-- Insertion-ordered association list update standing for the Python dict
named scores: when the key is present the stored value is updated in place,
otherwise the updated initial value is appended at the end (a Python dict
keeps insertion order, and the source inserts the fresh value before
mutating it). -/
def upsert (key : String) (upd : FusionResult → FusionResult) (init : FusionResult) :
    List (String × FusionResult) → List (String × FusionResult)
  | [] => [(key, upd init)]
  | (key2, v) :: rest =>
    if key2 = key then (key2, upd v) :: rest else (key2, v) :: upsert key upd init rest

/-- Inner loop of reciprocal_rank_fusion over one result list, the rank
argument being the 0-based rank of the head of the remaining list. -/
def rrfList (weight : ℚ) (k list_idx : Nat) (tb t3 : ℚ) :
    List SearchResult → Nat → List (String × FusionResult) → List (String × FusionResult)
  | [], _, scores => scores
  | r :: rest, rank, scores =>
      rrfList weight k list_idx tb t3 rest (rank + 1)
        (upsert (fusionKey r.chunk) (rrfUpd weight k list_idx rank tb t3)
          { result := r, rrf_score := 0, sources := [], is_top_rank := false } scores)

/-- Outer loop of reciprocal_rank_fusion over zip(result_lists, weights). -/
def rrfAll (k : Nat) (tb t3 : ℚ) :
    List (List SearchResult × ℚ) → Nat → List (String × FusionResult) →
      List (String × FusionResult)
  | [], _, scores => scores
  | (results, weight) :: rest, list_idx, scores =>
      rrfAll k tb t3 rest (list_idx + 1) (rrfList weight k list_idx tb t3 results 0 scores)

/-- Stable descending insertion by rrf_score: an element is placed after
every already placed element whose score is at least its own.  Folding it
over the input from the left yields exactly the list produced by Python
sorted with key rrf_score and reverse set, which is a stable sort, and a
stable sort for a total preorder is unique as a function of the input. -/
def insertDesc (x : FusionResult) : List FusionResult → List FusionResult
  | [] => [x]
  | y :: ys => if y.rrf_score < x.rrf_score then x :: y :: ys else y :: insertDesc x ys

/-- Stable descending sort by rrf_score, see insertDesc. -/
def sortDesc (l : List FusionResult) : List FusionResult :=
  l.foldl (fun acc x => insertDesc x acc) []

/-- Model of rag.fusion.reciprocal_rank_fusion.  The none weights model the
Python default None, replaced by all ones; result_lists and weights are
combined with zip, which silently truncates to the shorter of the two. -/
def reciprocal_rank_fusion (result_lists : List (List SearchResult))
    (weights : Option (List ℚ)) (k top_n : Nat) (tb t3 : ℚ) : List FusionResult :=
  match result_lists with
  | [] => []
  | _ :: _ =>
    let ws := weights.getD (List.replicate result_lists.length 1)
    let scores := rrfAll k tb t3 (result_lists.zip ws) 0 []
    (sortDesc (scores.map (fun p => p.2))).take top_n

/-- Model of rag.fusion.position_aware_blend. -/
def position_aware_blend (rrf_score rerank_score : ℚ) (rrf_rank : Nat) : ℚ :=
  let rrf_weight : ℚ := if rrf_rank < 3 then 0.75 else if rrf_rank < 10 then 0.60 else 0.40
  let rerank_weight := 1 - rrf_weight
  let normalized_rrf := min (rrf_score * 2) 1
  normalized_rrf * rrf_weight + rerank_score * rerank_weight

/-- Model of rag.fusion.StrongSignal. -/
structure StrongSignal where
  is_strong : Bool
  top_score : ℚ
  score_gap : ℚ
deriving DecidableEq

/-- Model of rag.fusion.detect_strong_signal. -/
def detect_strong_signal (results : List SearchResult)
    (threshold gap_threshold : ℚ) : StrongSignal :=
  match results with
  | [] => { is_strong := false, top_score := 0, score_gap := 0 }
  | [r] => { is_strong := decide (threshold ≤ r.score), top_score := r.score, score_gap := 1 }
  | r1 :: r2 :: _ =>
      let gap := r1.score - r2.score
      { is_strong := decide (threshold ≤ r1.score) && decide (gap_threshold ≤ gap)
        top_score := r1.score
        score_gap := gap }

/-- Model of HybridRetriever.search from the point where the two index
searches have returned, hybrid.py lines 104 to 123: strong-signal
short-circuit on the lexical list with the module default thresholds, else
RRF fusion of the two lists with weights bm25_weight and vector_weight, the
defaults k 60, top-rank bonus 0.05 and top-3 bonus 0.02, and projection of
each FusionResult to its stored SearchResult. -/
def hybridSearchCore (bm25_results vector_results : List SearchResult)
    (top_k : Nat) (enable_strong_signal : Bool) (bm25_weight vector_weight : ℚ) :
    List SearchResult :=
  if enable_strong_signal && (detect_strong_signal bm25_results 0.85 0.15).is_strong then
    bm25_results.take top_k
  else
    (reciprocal_rank_fusion [bm25_results, vector_results]
        (some [bm25_weight, vector_weight]) 60 top_k 0.05 0.02).map
      (fun fr => fr.result)

/-- The per-occurrence rank bonus of the fusion loop as a function of the
0-based rank: the top-rank bonus at rank 0, the top-3 bonus at ranks 1 and
2, zero otherwise. -/
def rankBonus (tb t3 : ℚ) (rank : Nat) : ℚ :=
  if rank = 0 then tb else if rank < 3 then t3 else 0

/-- Declarative score contributed by one result list to one dedup key, ranks
counted from an offset: the sum over the occurrences of the key in the list
of weight / (k + rank + 1) plus the per-occurrence rank bonus. -/
def listScoreFrom (weight : ℚ) (k : Nat) (tb t3 : ℚ) (key : String) :
    List SearchResult → Nat → ℚ
  | [], _ => 0
  | r :: rest, rank =>
      (if fusionKey r.chunk = key then
        weight / ((k : ℚ) + (rank : ℚ) + 1) + rankBonus tb t3 rank
      else 0)
      + listScoreFrom weight k tb t3 key rest (rank + 1)

/-- Declarative fused score of a dedup key: the sum of the per-list scores
over the weighted lists. -/
def totalScore (k : Nat) (tb t3 : ℚ) (key : String) : List (List SearchResult × ℚ) → ℚ
  | [] => 0
  | (results, weight) :: rest =>
      listScoreFrom weight k tb t3 key results 0 + totalScore k tb t3 key rest

/-- Score stored for a key in the association list, zero when absent. -/
def lookupScore : List (String × FusionResult) → String → ℚ
  | [], _ => 0
  | (key2, v) :: rest, key => if key2 = key then v.rrf_score else lookupScore rest key

/-- Python str.strip with no argument: remove leading and trailing
whitespace. -/
def strip (s : List Char) : List Char :=
  ((s.dropWhile Char.isWhitespace).reverse.dropWhile Char.isWhitespace).reverse

/-- Python slice text[a:b] for nonnegative bounds, clamping at the ends. -/
def slice (s : List Char) (a b : Nat) : List Char :=
  (s.take b).drop a

/-- Python text.rfind(pat): the greatest index at which pat occurs as a
prefix of the corresponding suffix, as an Option (none models -1). -/
def rfindPat (pat s : List Char) : Option Nat :=
  ((List.range (s.length + 1)).filter (fun i => pat.isPrefixOf (s.drop i))).getLast?

/-- One candidate break of SmartChunker._find_break_point: the last
occurrence of pat, accepted when its index strictly exceeds the threshold,
yielding index plus the pattern length.  A Python rfind result of -1 never
exceeds the nonnegative threshold, which the none case models. -/
def tryBreak (pat s : List Char) (threshold : Nat) : Option Nat :=
  match rfindPat pat s with
  | some idx => if threshold < idx then some (idx + pat.length) else none
  | none => none

/-- The ordered break candidates of SmartChunker._find_break_point:
paragraph break, the four sentence ends, single newline, all with threshold
half the length, then space with threshold a third of the length. -/
def breakCandidates (s : List Char) : List (Option Nat) :=
  [tryBreak ['\n', '\n'] s (s.length / 2),
   tryBreak ['.', ' '] s (s.length / 2),
   tryBreak ['。'] s (s.length / 2),
   tryBreak ['!', ' '] s (s.length / 2),
   tryBreak ['?', ' '] s (s.length / 2),
   tryBreak ['\n'] s (s.length / 2),
   tryBreak [' '] s (s.length / 3)]

/-- Model of SmartChunker._find_break_point: the first accepted candidate in
priority order, else the full length. -/
def find_break_point (s : List Char) : Nat :=
  ((breakCandidates s).findSome? id).getD s.length

/-- Resolution of one Python slice bound against a string of the given
length: a negative bound counts from the end (clamped below at 0 by toNat),
a nonnegative bound is clamped above at the length. -/
def pySliceIdx (len : Nat) (i : Int) : Nat :=
  if i < 0 then (len + i).toNat else min i.toNat len

/-- Python slice text[a:b] on arbitrary integer bounds, including the
negative-index convention, via pySliceIdx. -/
def pySlice (s : List Char) (a b : Int) : List Char :=
  (s.take (pySliceIdx s.length b)).drop (pySliceIdx s.length a)

/-- End offset chosen by one iteration of SmartChunker._chunk_text at a
given window start: start plus chunk_size, shortened to start plus the
break point when the window does not already reach the end of the text and
the break point strictly exceeds half the chunk size.  The start is a
Python int: it can be negative, in which case the window slice follows the
negative-index convention of pySlice. -/
def smartEnd (chunk_size : Nat) (text : List Char) (start : Int) : Int :=
  let e := start + (chunk_size : Int)
  if e < (text.length : Int) then
    let bb := find_break_point (pySlice text start e)
    if chunk_size / 2 < bb then start + (bb : Int) else e
  else e

/-- The window start for the next iteration of SmartChunker._chunk_text:
the chosen end minus the overlap, computed on integers exactly as the
source computes it on Python ints (a value below zero is possible and is
kept, not clamped). -/
def smartNext (chunk_size overlap : Nat) (text : List Char) (start : Int) : Int :=
  smartEnd chunk_size text start - (overlap : Int)

/-- Fuel-indexed model of the while loop of SmartChunker._chunk_text; none
means the fuel ran out before the loop exited, which happens exactly when
the source loops without advancing past the fuel bound.  The source breaks
when the next start reaches the end of the text, which coincides with the
loop guard. -/
def smartLoop (chunk_size overlap : Nat) (docId : String) (base : Int) (text : List Char) :
    Nat → Int → Option (List Chunk)
  | 0, start => if start < (text.length : Int) then none else some []
  | fuel + 1, start =>
    if start < (text.length : Int) then
      let e := smartEnd chunk_size text start
      let c : Chunk :=
        { id := "", doc_id := docId, content := strip (pySlice text start e)
          start_idx := base + start, end_idx := base + e }
      match smartLoop chunk_size overlap docId base text fuel
          (smartNext chunk_size overlap text start) with
      | some rest => some (c :: rest)
      | none => none
    else some []

/-- Model of SmartChunker._chunk_text.  Fuel equal to the text length
suffices whenever the window advances on every iteration. -/
def smartChunkText (chunk_size overlap : Nat) (docId : String) (base : Int)
    (text : List Char) : Option (List Chunk) :=
  smartLoop chunk_size overlap docId base text text.length 0

/-- Model of SmartChunker.__init__: the constructor stores its arguments
verbatim and performs no validation. -/
structure SmartChunker where
  chunk_size : Nat
  overlap : Nat
  respect_headings : Bool
  respect_code_blocks : Bool
deriving DecidableEq

/-- The SmartChunker constructor, stated as a function to mirror the Python
call site; it cannot fail. -/
def SmartChunker.init (chunk_size overlap : Nat)
    (respect_headings respect_code_blocks : Bool) : SmartChunker :=
  { chunk_size := chunk_size, overlap := overlap
    respect_headings := respect_headings, respect_code_blocks := respect_code_blocks }

/-- Model of SmartChunker.chunk on the generic text route (doc_type neither
markdown nor python): the emptiness guard of lines 83 and 84 precedes any
routing, then _chunk_text runs from offset 0.  The markdown and python
routes are outside the verified scope. -/
def SmartChunker.chunkText (c : SmartChunker) (text : List Char) (docId : String) :
    Option (List Chunk) :=
  if text = [] || strip text = [] then some []
  else smartChunkText c.chunk_size c.overlap docId 0 text

/-- Python rfind as an integer, -1 when absent, used where the source takes
a max of several rfind results. -/
def rfindI (pat s : List Char) : Int :=
  match rfindPat pat s with
  | some i => (i : Int)
  | none => -1

/-- Break offset search of BM25Index._chunk_content inside the search slice
of one window: paragraph break, else the best sentence end (the max of five
rfinds, plus one), else newline, else space, each plus one; -1 when nothing
is found. -/
def bm25BreakOffset (searchSlice : List Char) : Int :=
  match rfindPat ['\n', '\n'] searchSlice with
  | some paraBreak => (paraBreak : Int) + 2
  | none =>
    let sentenceEnd : Int :=
      max (max (max (max (rfindI ['.', ' '] searchSlice) (rfindI ['.', '\n'] searchSlice))
        (rfindI ['。'] searchSlice)) (rfindI ['？'] searchSlice)) (rfindI ['！'] searchSlice)
    if 0 ≤ sentenceEnd then sentenceEnd + 1
    else
      match rfindPat ['\n'] searchSlice with
      | some lineBreak => (lineBreak : Int) + 1
      | none =>
        match rfindPat [' '] searchSlice with
        | some spaceBreak => (spaceBreak : Int) + 1
        | none => -1

/-- End position of one window of BM25Index._chunk_content.  The search
start is int of 0.7 times the window length, modelled as exact rational
arithmetic truncated toward zero, that is 7 n / 10 on naturals; the break
offset moves the end only when strictly positive. -/
def bm25End (chunk_size : Nat) (content : List Char) (pos : Nat) : Nat :=
  let end0 := min (pos + chunk_size) content.length
  if end0 < content.length then
    let searchStart := 7 * (end0 - pos) / 10
    let breakOffset := bm25BreakOffset (slice content (pos + searchStart) end0)
    if 0 < breakOffset then pos + searchStart + breakOffset.toNat else end0
  else end0

/-- Fuel-indexed model of the while loop of BM25Index._chunk_content; the
seq counter only feeds the omitted metadata map and is dropped. -/
def bm25Loop (chunk_size overlap : Nat) (docId : String) (content : List Char) :
    Nat → Nat → Option (List Chunk)
  | 0, pos => if pos < content.length then none else some []
  | fuel + 1, pos =>
    if pos < content.length then
      let e := bm25End chunk_size content pos
      let c : Chunk :=
        { id := "", doc_id := docId, content := slice content pos e
          start_idx := (pos : Int), end_idx := (e : Int) }
      let next := if e < content.length then e - overlap else e
      match bm25Loop chunk_size overlap docId content fuel next with
      | some rest => some (c :: rest)
      | none => none
    else some []

/-- Model of BM25Index._chunk_content: one full-span chunk when the content
fits in one window, else the overlapping window loop.  The metadata map
with file name and seq is omitted; the chunk id is a fresh uuid in the
source, opaque here. -/
def bm25ChunkContent (d : Document) (chunk_size overlap : Nat) : Option (List Chunk) :=
  if d.content.length ≤ chunk_size then
    some [{ id := "", doc_id := d.id, content := d.content, start_idx := 0,
            end_idx := (d.content.length : Int) }]
  else bm25Loop chunk_size overlap d.id d.content d.content.length 0

/-- Row of the documents table of the BM25 index; created_at is wall-clock
data never read back by the verified properties and is omitted. -/
structure BDocRow where
  id : String
  file_name : String
  file_path : String
  content_hash : String
deriving DecidableEq

/-- Row of the chunks table of the BM25 index (offsets as stored from the
chunk, SQLite INTEGER). -/
structure BChunkRow where
  id : String
  doc_id : String
  content : List Char
  start_idx : Int
  end_idx : Int
  seq : Nat
deriving DecidableEq

/-- Row of the chunks_fts virtual table of the BM25 index. -/
structure FtsRow where
  content : List Char
  file_name : String
  content_hash : String
  chunk_id : String
  doc_id : String
deriving DecidableEq

/-- Model of the SQLite storage of BM25Index as three row lists. -/
structure BM25State where
  documents : List BDocRow
  chunks : List BChunkRow
  chunks_fts : List FtsRow
deriving DecidableEq

/-- Model of BM25Index._remove_document_internal: delete every fts row,
chunk row and document row of the given doc id. -/
def bm25RemoveInternal (s : BM25State) (doc_id : String) : BM25State :=
  { documents := s.documents.filter (fun r => !(r.id == doc_id))
    chunks := s.chunks.filter (fun r => !(r.doc_id == doc_id))
    chunks_fts := s.chunks_fts.filter (fun r => !(r.doc_id == doc_id)) }

/-- Chunk table rows inserted for one document by BM25Index.index_document:
the freshly chunked content, enumerated as the seq column. -/
def bm25ChunkRows (d : Document) : List BChunkRow :=
  ((bm25ChunkContent d 800 120).getD []).enum.map (fun p =>
    ({ id := p.2.id, doc_id := d.id, content := p.2.content, start_idx := p.2.start_idx,
       end_idx := p.2.end_idx, seq := p.1 } : BChunkRow))

/-- Fts table rows inserted for one document by BM25Index.index_document. -/
def bm25FtsRows (hash : List Char → String) (d : Document) : List FtsRow :=
  ((bm25ChunkContent d 800 120).getD []).map (fun c =>
    ({ content := c.content, file_name := d.file_name, content_hash := hash d.content,
       chunk_id := c.id, doc_id := d.id } : FtsRow))

/-- Document table row inserted by BM25Index.index_document. -/
def bm25DocRow (hash : List Char → String) (d : Document) : BDocRow :=
  { id := d.id, file_name := d.file_name, file_path := d.source_path,
    content_hash := hash d.content }

/-- Model of BM25Index.index_document: remove-if-present keyed by doc id,
then insert one document row and the chunk and fts rows of the freshly
chunked content, returning the new state and the chunk count.  Content
hashing is an external pure function passed in. -/
def bm25IndexDocument (hash : List Char → String) (s : BM25State) (d : Document) :
    BM25State × Nat :=
  let s1 := if s.documents.any (fun r => r.id == d.id) then bm25RemoveInternal s d.id else s
  ({ documents := s1.documents ++ [bm25DocRow hash d]
     chunks := s1.chunks ++ bm25ChunkRows d
     chunks_fts := s1.chunks_fts ++ bm25FtsRows hash d },
   ((bm25ChunkContent d 800 120).getD []).length)

/-- The total_chunks field of BM25Index.get_stats. -/
def bm25ChunkCount (s : BM25State) : Nat :=
  s.chunks.length

/-- First separator of VectorIndex._chunk_text whose last occurrence clears
half of CHUNK_SIZE, that is 250: sentence end, Chinese full stop, blank
line, newline, in that order; the accepted value is the occurrence index
plus the separator length. -/
def vectorBreak (chunkText : List Char) : Option Nat :=
  match tryBreak ['.', ' '] chunkText 250 with
  | some b => some b
  | none =>
    match tryBreak ['。'] chunkText 250 with
    | some b => some b
    | none =>
      match tryBreak ['\n', '\n'] chunkText 250 with
      | some b => some b
      | none => tryBreak ['\n'] chunkText 250

/-- End offset of one window of VectorIndex._chunk_text with the fixed
CHUNK_SIZE of 500. -/
def vectorEnd (text : List Char) (start : Nat) : Nat :=
  let e := start + 500
  if e < text.length then
    match vectorBreak (slice text start e) with
    | some b => start + b
    | none => e
  else e

/-- Fuel-indexed model of the while loop of VectorIndex._chunk_text with
the fixed CHUNK_OVERLAP of 100. -/
def vectorLoop (docId : String) (text : List Char) : Nat → Nat → Option (List Chunk)
  | 0, start => if start < text.length then none else some []
  | fuel + 1, start =>
    if start < text.length then
      let e := vectorEnd text start
      let c : Chunk :=
        { id := "", doc_id := docId, content := strip (slice text start e)
          start_idx := (start : Int), end_idx := (e : Int) }
      match vectorLoop docId text fuel (e - 100) with
      | some rest => some (c :: rest)
      | none => none
    else some []

/-- Model of VectorIndex._chunk_text; the window always advances by at
least 152 characters, so fuel equal to the text length is sufficient,
which vectorLoop_isSome below proves. -/
def vectorChunks (docId : String) (text : List Char) : List Chunk :=
  (vectorLoop docId text text.length 0).getD []

/-- Row of the LanceDB chunks table; the stored embedding vector is never
read by a verified property and is omitted. -/
structure VRow where
  id : String
  doc_id : String
  content : List Char
  start_idx : Int
  end_idx : Int
  file_name : String
  file_type : String
deriving DecidableEq

/-- Model of VectorIndex storage: a none table means the LanceDB table does
not exist yet and is created with the first inserted batch. -/
structure VectorIndexState where
  table : Option (List VRow)
deriving DecidableEq

/-- Model of VectorIndex.index_document, returning the new state and the
chunk count.  Embedding generation is a batched provider call whose vectors
are stored but never read by the verified properties; note the absence of
any removal of previously stored rows of the same doc id. -/
def vectorIndexDocument (s : VectorIndexState) (d : Document) : VectorIndexState × Nat :=
  if d.content = [] then (s, 0)
  else
    let chunks := vectorChunks d.id d.content
    if chunks = [] then (s, 0)
    else
      let data := chunks.map (fun c =>
        ({ id := c.id, doc_id := c.doc_id, content := c.content, start_idx := c.start_idx,
           end_idx := c.end_idx, file_name := d.file_name, file_type := d.file_type } : VRow))
      match s.table with
      | none => ({ table := some data }, chunks.length)
      | some t => ({ table := some (t ++ data) }, chunks.length)

/-- The LanceDB rows inserted for one document (embedding vectors omitted,
see vectorIndexDocument). -/
def vectorRows (d : Document) : List VRow :=
  (vectorChunks d.id d.content).map (fun c =>
    ({ id := c.id, doc_id := c.doc_id, content := c.content, start_idx := c.start_idx,
       end_idx := c.end_idx, file_name := d.file_name, file_type := d.file_type } : VRow))

/-- The total_chunks field of VectorIndex.get_stats. -/
def vectorChunkCount (s : VectorIndexState) : Nat :=
  (s.table.getD []).length

/-- Model of VectorIndex.search.  The external effects are parameters: the
primary attempt covers the query embedding plus the vector search of the
first try block, and fts covers the full-text fallback; the final fallback
reads the first top_k stored rows.  Retrieved rows carry an optional
distance (none models a row without a _distance field, whose Python default
is the numeric enumeration index, giving score 1 / (1 + i)). -/
def vectorSearchModel (table : Option (List VRow))
    (primary fts : Except String (List (VRow × Option ℚ)))
    (top_k : Nat) : List SearchResult :=
  match table with
  | none => []
  | some rows =>
    let results : List (VRow × Option ℚ) :=
      match primary with
      | .ok rs => rs
      | .error _ =>
        match fts with
        | .ok rs => rs
        | .error _ => (rows.take top_k).map (fun r => (r, none))
    results.enum.map (fun p =>
      ({ chunk := { id := p.2.1.id, doc_id := p.2.1.doc_id, content := p.2.1.content,
                    start_idx := p.2.1.start_idx, end_idx := p.2.1.end_idx }
         score :=
           match p.2.2 with
           | some d => 1 / (1 + d)
           | none => 1 / (1 + (p.1 : ℚ)) } : SearchResult))

theorem rrfUpd_result (w : ℚ) (k li rank : Nat) (tb t3 : ℚ) (fr : FusionResult) :
    (rrfUpd w k li rank tb t3 fr).result = fr.result := by
  unfold rrfUpd
  split_ifs <;> rfl

theorem rrfUpd_score (w : ℚ) (k li rank : Nat) (tb t3 : ℚ) (fr : FusionResult) :
    (rrfUpd w k li rank tb t3 fr).rrf_score
      = fr.rrf_score + (w / ((k : ℚ) + (rank : ℚ) + 1) + rankBonus tb t3 rank) := by
  unfold rrfUpd rankBonus
  split_ifs <;> simp <;> ring

theorem lookupScore_upsert (key key2 : String) (upd : FusionResult → FusionResult)
    (init : FusionResult) (c : ℚ)
    (hupd : ∀ fr, (upd fr).rrf_score = fr.rrf_score + c)
    (hinit : init.rrf_score = 0) :
    ∀ scores : List (String × FusionResult),
      lookupScore (upsert key upd init scores) key2
        = lookupScore scores key2 + (if key = key2 then c else 0) := by
  intro scores
  induction scores with
  | nil =>
    by_cases h : key = key2 <;> simp [upsert, lookupScore, h, hupd, hinit]
  | cons p rest ih =>
    obtain ⟨k2, v⟩ := p
    by_cases hk : k2 = key
    · subst hk
      by_cases h2 : k2 = key2 <;> simp [upsert, lookupScore, h2, hupd]
    · by_cases h2 : k2 = key2
      · subst h2
        have : ¬ key = k2 := fun h => hk h.symm
        simp [upsert, lookupScore, hk, this]
      · simp [upsert, lookupScore, hk, h2, ih]

theorem rrfList_lookup (w : ℚ) (k li : Nat) (tb t3 : ℚ) (key : String) :
    ∀ (results : List SearchResult) (rank : Nat) (scores : List (String × FusionResult)),
      lookupScore (rrfList w k li tb t3 results rank scores) key
        = lookupScore scores key + listScoreFrom w k tb t3 key results rank := by
  intro results
  induction results with
  | nil => intro rank scores; simp [rrfList, listScoreFrom]
  | cons r rest ih =>
    intro rank scores
    rw [rrfList, listScoreFrom, ih,
      lookupScore_upsert (fusionKey r.chunk) key _ _
        (w / ((k : ℚ) + (rank : ℚ) + 1) + rankBonus tb t3 rank)
        (fun fr => rrfUpd_score w k li rank tb t3 fr) rfl]
    ring

theorem rrfAll_lookup (k : Nat) (tb t3 : ℚ) (key : String) :
    ∀ (lists : List (List SearchResult × ℚ)) (li : Nat)
      (scores : List (String × FusionResult)),
      lookupScore (rrfAll k tb t3 lists li scores) key
        = lookupScore scores key + totalScore k tb t3 key lists := by
  intro lists
  induction lists with
  | nil => intro li scores; simp [rrfAll, totalScore]
  | cons p rest ih =>
    intro li scores
    obtain ⟨results, w⟩ := p
    rw [rrfAll, totalScore, ih, rrfList_lookup]
    ring

theorem upsert_keys (key : String) (upd : FusionResult → FusionResult) (init : FusionResult) :
    ∀ scores : List (String × FusionResult),
      (upsert key upd init scores).map (fun p => p.1)
        = if key ∈ scores.map (fun p => p.1) then scores.map (fun p => p.1)
          else scores.map (fun p => p.1) ++ [key] := by
  intro scores
  induction scores with
  | nil => simp [upsert]
  | cons p rest ih =>
    obtain ⟨k2, v⟩ := p
    by_cases hk : k2 = key
    · subst hk
      simp [upsert]
    · have : ¬ key = k2 := fun h => hk h.symm
      by_cases hmem : key ∈ rest.map (fun p => p.1) <;>
        simp [upsert, hk, this, hmem, ih]

theorem upsert_keys_nodup (key : String) (upd : FusionResult → FusionResult)
    (init : FusionResult) (scores : List (String × FusionResult))
    (h : (scores.map (fun p => p.1)).Nodup) :
    ((upsert key upd init scores).map (fun p => p.1)).Nodup := by
  rw [upsert_keys]
  by_cases hmem : key ∈ scores.map (fun p => p.1)
  · simpa [hmem] using h
  · simp [hmem, List.nodup_append, h]

theorem upsert_coherent (key : String) (upd : FusionResult → FusionResult)
    (init : FusionResult)
    (hupd : ∀ fr, (upd fr).result = fr.result)
    (hinit : key = fusionKey init.result.chunk) :
    ∀ scores : List (String × FusionResult),
      (∀ p ∈ scores, p.1 = fusionKey p.2.result.chunk) →
      ∀ p ∈ upsert key upd init scores, p.1 = fusionKey p.2.result.chunk := by
  intro scores
  induction scores with
  | nil =>
    intro _ p hp
    simp [upsert] at hp
    subst hp
    simpa [hupd] using hinit
  | cons q rest ih =>
    intro hco p hp
    obtain ⟨k2, v⟩ := q
    by_cases hk : k2 = key
    · subst hk
      simp [upsert] at hp
      rcases hp with hp | hp
      · subst hp
        simpa [hupd] using hco ⟨k2, v⟩ (List.mem_cons_self _ _)
      · exact hco p (List.mem_cons_of_mem _ hp)
    · simp [upsert, hk] at hp
      rcases hp with hp | hp
      · subst hp
        exact hco ⟨k2, v⟩ (List.mem_cons_self _ _)
      · exact ih (fun q hq => hco q (List.mem_cons_of_mem _ hq)) p hp

theorem upsert_of_mem (key : String) (upd : FusionResult → FusionResult)
    (init : FusionResult) :
    ∀ scores : List (String × FusionResult),
      (scores.map (fun p => p.1)).Nodup →
      key ∈ scores.map (fun p => p.1) →
      ∀ p ∈ upsert key upd init scores,
        (p ∈ scores ∧ p.1 ≠ key) ∨ ∃ v, (key, v) ∈ scores ∧ p = (key, upd v) := by
  intro scores
  induction scores with
  | nil => intro _ hmem; simp at hmem
  | cons q rest ih =>
    intro hnd hmem p hp
    obtain ⟨k2, v⟩ := q
    rw [List.map_cons, List.nodup_cons] at hnd
    by_cases hk : k2 = key
    · subst hk
      simp [upsert] at hp
      rcases hp with hp | hp
      · exact Or.inr ⟨v, List.mem_cons_self _ _, hp⟩
      · refine Or.inl ⟨List.mem_cons_of_mem _ hp, ?_⟩
        intro hpk
        exact hnd.1 (hpk ▸ List.mem_map_of_mem (fun q => q.1) hp)
    · simp [upsert, hk] at hp
      have hmem2 : key ∈ rest.map (fun p => p.1) := by
        rcases List.mem_cons.mp hmem with h | h
        · exact absurd h.symm hk
        · exact h
      rcases hp with hp | hp
      · subst hp
        exact Or.inl ⟨List.mem_cons_self _ _, hk⟩
      · rcases ih hnd.2 hmem2 p hp with h | ⟨v2, hv2, hpv⟩
        · exact Or.inl ⟨List.mem_cons_of_mem _ h.1, h.2⟩
        · exact Or.inr ⟨v2, List.mem_cons_of_mem _ hv2, hpv⟩

theorem upsert_of_not_mem (key : String) (upd : FusionResult → FusionResult)
    (init : FusionResult) :
    ∀ scores : List (String × FusionResult),
      key ∉ scores.map (fun p => p.1) →
      upsert key upd init scores = scores ++ [(key, upd init)] := by
  intro scores
  induction scores with
  | nil => intro _; simp [upsert]
  | cons q rest ih =>
    intro hmem
    obtain ⟨k2, v⟩ := q
    rw [List.map_cons, List.mem_cons, not_or] at hmem
    have hne : ¬ k2 = key := fun h => hmem.1 (by simp [h])
    simp [upsert, hne, ih hmem.2]

/-- First element of the processing stream carrying a given dedup key; the
stream is the concatenation of the fused result lists in fusion order. -/
def firstHit (stream : List SearchResult) (key : String) : Option SearchResult :=
  stream.find? (fun r => fusionKey r.chunk == key)

theorem find?_append_of_some {α : Type} (p : α → Bool) {l1 : List α} {x : α}
    (h : l1.find? p = some x) (l2 : List α) : (l1 ++ l2).find? p = some x := by
  rw [List.find?_append, h]
  rfl

theorem find?_append_of_none {α : Type} (p : α → Bool) {l1 : List α}
    (h : l1.find? p = none) (l2 : List α) : (l1 ++ l2).find? p = l2.find? p := by
  rw [List.find?_append, h]
  rfl

/-- Invariant tying the association list to the processed stream prefix:
every stored entry holds the first stream element of its key, and every
stream element has an entry. -/
def StreamInv (scores : List (String × FusionResult)) (stream : List SearchResult) : Prop :=
  (∀ p ∈ scores, firstHit stream p.1 = some p.2.result)
  ∧ ∀ r ∈ stream, ∃ p ∈ scores, p.1 = fusionKey r.chunk

theorem streamInv_upsert (upd : FusionResult → FusionResult) (init : FusionResult)
    (r : SearchResult) (scores : List (String × FusionResult))
    (stream : List SearchResult)
    (hupd : ∀ fr, (upd fr).result = fr.result)
    (hinitres : init.result = r)
    (hnd : (scores.map (fun p => p.1)).Nodup)
    (hinv : StreamInv scores stream) :
    StreamInv (upsert (fusionKey r.chunk) upd init scores) (stream ++ [r]) := by
  by_cases hmem : fusionKey r.chunk ∈ scores.map (fun p => p.1)
  · constructor
    · intro p hp
      rcases upsert_of_mem _ upd init scores hnd hmem p hp with ⟨hps, _⟩ | ⟨v, hv, hpv⟩
      · exact find?_append_of_some _ (hinv.1 p hps) _
      · have hbase : firstHit (stream ++ [r]) (fusionKey r.chunk) = some v.result :=
          find?_append_of_some _ (hinv.1 (fusionKey r.chunk, v) hv) [r]
        rw [hpv]
        simpa [hupd] using hbase
    · intro r2 hr2
      have hkeys : (upsert (fusionKey r.chunk) upd init scores).map (fun p => p.1)
          = scores.map (fun p => p.1) := by
        rw [upsert_keys]; simp [hmem]
      have hget : ∀ key, key ∈ scores.map (fun p => p.1) →
          ∃ p ∈ upsert (fusionKey r.chunk) upd init scores, p.1 = key := by
        intro key hkey
        have : key ∈ (upsert (fusionKey r.chunk) upd init scores).map (fun q => q.1) := by
          rw [hkeys]; exact hkey
        obtain ⟨q, hq, hqk⟩ := List.mem_map.mp this
        exact ⟨q, hq, hqk⟩
      rcases List.mem_append.mp hr2 with h | h
      · obtain ⟨p, hps, hpk⟩ := hinv.2 r2 h
        exact hget _ (hpk ▸ List.mem_map_of_mem (fun q => q.1) hps)
      · have hr2r : r2 = r := by simpa using h
        rw [hr2r]
        exact hget _ hmem
  · have hnone : firstHit stream (fusionKey r.chunk) = none := by
      rcases hfind : stream.find? (fun r2 => fusionKey r2.chunk == fusionKey r.chunk) with _ | x
      · exact hfind
      · exfalso
        have hx : x ∈ stream := List.mem_of_find?_eq_some hfind
        have hpx := List.find?_some hfind
        obtain ⟨p, hps, hpk⟩ := hinv.2 x hx
        apply hmem
        rw [← (by simpa using hpx : fusionKey x.chunk = fusionKey r.chunk), ← hpk]
        exact List.mem_map_of_mem _ hps
    rw [upsert_of_not_mem _ upd init scores hmem]
    constructor
    · intro p hp
      rcases List.mem_append.mp hp with h | h
      · exact find?_append_of_some _ (hinv.1 p h) _
      · have hpval : p = (fusionKey r.chunk, upd init) := by simpa using h
        have hlast : firstHit (stream ++ [r]) (fusionKey r.chunk)
            = List.find? (fun r2 => fusionKey r2.chunk == fusionKey r.chunk) [r] :=
          find?_append_of_none _ hnone _
        have hres : (upd init).result = r := by rw [hupd, hinitres]
        rw [hpval]
        simp only [hlast]
        simp [List.find?, hres]
    · intro r2 hr2
      rcases List.mem_append.mp hr2 with h | h
      · obtain ⟨p, hps, hpk⟩ := hinv.2 r2 h
        exact ⟨p, List.mem_append_left _ hps, hpk⟩
      · have hr2r : r2 = r := by simpa using h
        exact ⟨(fusionKey r.chunk, upd init), List.mem_append_right _ (by simp),
          by rw [hr2r]⟩

/-- Well-formedness of the scores association list: keys are pairwise
distinct and each entry carries the fusion key of its stored result. -/
def ScoresWF (scores : List (String × FusionResult)) : Prop :=
  (scores.map (fun p => p.1)).Nodup ∧ ∀ p ∈ scores, p.1 = fusionKey p.2.result.chunk

theorem scoresWF_rrfList (w : ℚ) (k li : Nat) (tb t3 : ℚ) :
    ∀ (results : List SearchResult) (rank : Nat)
      (scores : List (String × FusionResult)) (stream : List SearchResult),
      ScoresWF scores → StreamInv scores stream →
      ScoresWF (rrfList w k li tb t3 results rank scores)
        ∧ StreamInv (rrfList w k li tb t3 results rank scores) (stream ++ results) := by
  intro results
  induction results with
  | nil =>
    intro rank scores stream hwf hinv
    rw [rrfList]
    exact ⟨hwf, by simpa using hinv⟩
  | cons r rest ih =>
    intro rank scores stream hwf hinv
    have h1 : ScoresWF (upsert (fusionKey r.chunk) (rrfUpd w k li rank tb t3)
        { result := r, rrf_score := 0, sources := [], is_top_rank := false } scores) := by
      refine ⟨upsert_keys_nodup _ _ _ _ hwf.1, ?_⟩
      exact upsert_coherent (fusionKey r.chunk) (rrfUpd w k li rank tb t3)
        { result := r, rrf_score := 0, sources := [], is_top_rank := false }
        (rrfUpd_result w k li rank tb t3) rfl scores hwf.2
    have h2 := streamInv_upsert (rrfUpd w k li rank tb t3)
      { result := r, rrf_score := 0, sources := [], is_top_rank := false } r scores stream
      (rrfUpd_result w k li rank tb t3) rfl hwf.1 hinv
    have hrec := ih (rank + 1) _ _ h1 h2
    rw [rrfList]
    rw [show stream ++ r :: rest = (stream ++ [r]) ++ rest by simp]
    exact hrec

theorem scoresWF_rrfAll (k : Nat) (tb t3 : ℚ) :
    ∀ (lists : List (List SearchResult × ℚ)) (li : Nat)
      (scores : List (String × FusionResult)) (stream : List SearchResult),
      ScoresWF scores → StreamInv scores stream →
      ScoresWF (rrfAll k tb t3 lists li scores)
        ∧ StreamInv (rrfAll k tb t3 lists li scores)
            (stream ++ (lists.map (fun p => p.1)).flatten) := by
  intro lists
  induction lists with
  | nil =>
    intro li scores stream hwf hinv
    rw [rrfAll]
    exact ⟨hwf, by simpa using hinv⟩
  | cons p rest ih =>
    intro li scores stream hwf hinv
    obtain ⟨results, w⟩ := p
    have hstep := scoresWF_rrfList w k li tb t3 results 0 scores stream hwf hinv
    have hrec := ih (li + 1) _ _ hstep.1 hstep.2
    rw [rrfAll]
    rw [show stream ++ (List.map (fun p => p.1) ((results, w) :: rest)).flatten
        = (stream ++ results) ++ (rest.map (fun p => p.1)).flatten by simp]
    exact hrec

theorem rrf_score_eq_lookup :
    ∀ scores : List (String × FusionResult), (scores.map (fun p => p.1)).Nodup →
      ∀ p ∈ scores, p.2.rrf_score = lookupScore scores p.1 := by
  intro scores
  induction scores with
  | nil => intro _ p hp; simp at hp
  | cons q rest ih =>
    intro hnd p hp
    obtain ⟨k2, v⟩ := q
    rw [List.map_cons, List.nodup_cons] at hnd
    rcases List.mem_cons.mp hp with h | h
    · rw [h]
      simp [lookupScore]
    · have hne : ¬ k2 = p.1 := by
        intro hk
        exact hnd.1 (hk ▸ List.mem_map_of_mem (fun q => q.1) h)
      simp [lookupScore, hne, ih hnd.2 p h]

theorem insertDesc_perm (x : FusionResult) :
    ∀ l : List FusionResult, (insertDesc x l).Perm (x :: l) := by
  intro l
  induction l with
  | nil => simp [insertDesc]
  | cons y ys ih =>
    rw [insertDesc]
    by_cases h : y.rrf_score < x.rrf_score
    · simp [h]
    · rw [if_neg h]
      exact (ih.cons y).trans (List.Perm.swap x y ys)

theorem sortDesc_perm (l : List FusionResult) : (sortDesc l).Perm l := by
  have key : ∀ (l acc : List FusionResult),
      (l.foldl (fun a x => insertDesc x a) acc).Perm (l ++ acc) := by
    intro l
    induction l with
    | nil => intro acc; simp
    | cons x xs ih =>
      intro acc
      have h1 : (xs.foldl (fun a x => insertDesc x a) (insertDesc x acc)).Perm
          (xs ++ insertDesc x acc) := ih _
      have h2 : (xs ++ insertDesc x acc).Perm (xs ++ (x :: acc)) :=
        (insertDesc_perm x acc).append_left xs
      have h3 : (xs ++ (x :: acc)).Perm (x :: (xs ++ acc)) := List.perm_middle
      simpa using (h1.trans h2).trans h3
  simpa using key l []

theorem pairwise_insertDesc (x : FusionResult) :
    ∀ l : List FusionResult,
      List.Pairwise (fun a b => b.rrf_score ≤ a.rrf_score) l →
      List.Pairwise (fun a b => b.rrf_score ≤ a.rrf_score) (insertDesc x l) := by
  intro l
  induction l with
  | nil => intro _; simp [insertDesc]
  | cons y ys ih =>
    intro h
    rw [List.pairwise_cons] at h
    rw [insertDesc]
    by_cases hlt : y.rrf_score < x.rrf_score
    · rw [if_pos hlt]
      refine List.pairwise_cons.mpr ⟨?_, List.pairwise_cons.mpr ⟨h.1, h.2⟩⟩
      intro z hz
      rcases List.mem_cons.mp hz with rfl | hz
      · exact le_of_lt hlt
      · exact le_trans (h.1 z hz) (le_of_lt hlt)
    · rw [if_neg hlt]
      refine List.pairwise_cons.mpr ⟨?_, ih h.2⟩
      intro z hz
      rcases List.mem_cons.mp ((insertDesc_perm x ys).subset hz) with rfl | hz2
      · exact le_of_not_lt hlt
      · exact h.1 z hz2

theorem sortDesc_pairwise (l : List FusionResult) :
    List.Pairwise (fun a b => b.rrf_score ≤ a.rrf_score) (sortDesc l) := by
  have key : ∀ (l acc : List FusionResult),
      List.Pairwise (fun a b => b.rrf_score ≤ a.rrf_score) acc →
      List.Pairwise (fun a b => b.rrf_score ≤ a.rrf_score)
        (l.foldl (fun a x => insertDesc x a) acc) := by
    intro l
    induction l with
    | nil => intro acc h; simpa using h
    | cons x xs ih =>
      intro acc h
      exact ih _ (pairwise_insertDesc x acc h)
  exact key l [] (by simp)

theorem rrf_mem_spec (result_lists : List (List SearchResult)) (ws : List ℚ)
    (k top_n : Nat) (tb t3 : ℚ) (fr : FusionResult)
    (hfr : fr ∈ reciprocal_rank_fusion result_lists (some ws) k top_n tb t3) :
    fr.rrf_score = totalScore k tb t3 (fusionKey fr.result.chunk) (result_lists.zip ws)
    ∧ firstHit (((result_lists.zip ws).map (fun p => p.1)).flatten)
        (fusionKey fr.result.chunk) = some fr.result := by
  cases result_lists with
  | nil => simp [reciprocal_rank_fusion] at hfr
  | cons hd tl =>
    rw [reciprocal_rank_fusion] at hfr
    simp only [Option.getD_some] at hfr
    set scores := rrfAll k tb t3 ((hd :: tl).zip ws) 0 [] with hscores
    have h1 : fr ∈ sortDesc (scores.map (fun p => p.2)) :=
      (List.take_sublist _ _).subset hfr
    have h2 : fr ∈ scores.map (fun p => p.2) := (sortDesc_perm _).subset h1
    obtain ⟨p, hps, hpfr⟩ := List.mem_map.mp h2
    have hwf := scoresWF_rrfAll k tb t3 ((hd :: tl).zip ws) 0 [] []
      ⟨List.nodup_nil, by simp⟩ ⟨by simp, by simp⟩
    have hkey : p.1 = fusionKey fr.result.chunk := by
      rw [← hpfr]
      exact hwf.1.2 p hps
    constructor
    · rw [← hpfr, rrf_score_eq_lookup scores hwf.1.1 p hps, ← hwf.1.2 p hps]
      have := rrfAll_lookup k tb t3 p.1 ((hd :: tl).zip ws) 0 []
      rw [← hscores] at this
      simpa [lookupScore] using this
    · rw [← hkey, ← hpfr]
      have := hwf.2.1 p hps
      simpa using this

theorem rrf_sorted (result_lists : List (List SearchResult)) (ws : Option (List ℚ))
    (k top_n : Nat) (tb t3 : ℚ) :
    List.Pairwise (fun a b => b.rrf_score ≤ a.rrf_score)
      (reciprocal_rank_fusion result_lists ws k top_n tb t3) := by
  cases result_lists with
  | nil => simp [reciprocal_rank_fusion]
  | cons hd tl =>
    rw [reciprocal_rank_fusion]
    exact List.Pairwise.sublist (List.take_sublist _ _) (sortDesc_pairwise _)

theorem rrf_length_le (result_lists : List (List SearchResult)) (ws : Option (List ℚ))
    (k top_n : Nat) (tb t3 : ℚ) :
    (reciprocal_rank_fusion result_lists ws k top_n tb t3).length ≤ top_n := by
  cases result_lists with
  | nil => simp [reciprocal_rank_fusion]
  | cons hd tl =>
    rw [reciprocal_rank_fusion]
    rw [List.length_take]
    exact min_le_left _ _

theorem rrf_keys_pairwise (result_lists : List (List SearchResult)) (ws : List ℚ)
    (k top_n : Nat) (tb t3 : ℚ) :
    List.Pairwise (fun a b => fusionKey a.result.chunk ≠ fusionKey b.result.chunk)
      (reciprocal_rank_fusion result_lists (some ws) k top_n tb t3) := by
  cases result_lists with
  | nil => simp [reciprocal_rank_fusion]
  | cons hd tl =>
    rw [reciprocal_rank_fusion]
    set scores := rrfAll k tb t3 ((hd :: tl).zip ws) 0 [] with hscores
    have hwf := scoresWF_rrfAll k tb t3 ((hd :: tl).zip ws) 0 [] []
      ⟨List.nodup_nil, by simp⟩ ⟨by simp, by simp⟩
    have hnd : List.Pairwise (fun p q : String × FusionResult => p.1 ≠ q.1) scores := by
      have := hwf.1.1
      rw [List.Nodup, List.pairwise_map] at this
      exact this
    have hsnd : List.Pairwise
        (fun a b : FusionResult => fusionKey a.result.chunk ≠ fusionKey b.result.chunk)
        (scores.map (fun p => p.2)) := by
      rw [List.pairwise_map]
      refine hnd.imp_of_mem ?_
      intro p q hp hq hne
      rw [← hwf.1.2 p hp, ← hwf.1.2 q hq]
      exact hne
    have hsorted : List.Pairwise
        (fun a b : FusionResult => fusionKey a.result.chunk ≠ fusionKey b.result.chunk)
        (sortDesc (scores.map (fun p => p.2))) := by
      refine ((sortDesc_perm _).pairwise_iff ?_).mpr hsnd
      intro x y h
      exact h.symm
    exact List.Pairwise.sublist (List.take_sublist _ _) hsorted

theorem getLast?_mem2 {α : Type} {l : List α} {a : α} (h : l.getLast? = some a) : a ∈ l := by
  rcases List.mem_getLast?_eq_getLast (by simp [h] : a ∈ l.getLast?) with ⟨hne, rfl⟩
  exact List.getLast_mem hne

theorem rfindPat_le {pat s : List Char} {i : Nat} (h : rfindPat pat s = some i) :
    i + pat.length ≤ s.length := by
  have hmem : i ∈ (List.range (s.length + 1)).filter (fun j => pat.isPrefixOf (s.drop j)) :=
    getLast?_mem2 h
  rw [List.mem_filter] at hmem
  have hpre : pat <+: s.drop i := List.isPrefixOf_iff_prefix.mp hmem.2
  have hlen : pat.length ≤ (s.drop i).length := hpre.length_le
  rw [List.length_drop] at hlen
  have hi : i < s.length + 1 := List.mem_range.mp hmem.1
  omega

theorem tryBreak_le {pat s : List Char} {t b : Nat} (h : tryBreak pat s t = some b) :
    b ≤ s.length := by
  unfold tryBreak at h
  rcases hf : rfindPat pat s with _ | idx
  · rw [hf] at h; cases h
  · rw [hf] at h
    simp only [] at h
    split_ifs at h with ht
    · injection h with h
      have := rfindPat_le hf
      omega

theorem tryBreak_gt {pat s : List Char} {t b : Nat} (h : tryBreak pat s t = some b) :
    t < b := by
  unfold tryBreak at h
  rcases hf : rfindPat pat s with _ | idx
  · rw [hf] at h; cases h
  · rw [hf] at h
    simp only [] at h
    split_ifs at h with ht
    · injection h with h
      omega

theorem find_break_point_le (s : List Char) : find_break_point s ≤ s.length := by
  unfold find_break_point
  rcases hfs : (breakCandidates s).findSome? id with _ | b
  · simp
  · rw [Option.getD_some]
    obtain ⟨o, ho, hob⟩ := List.exists_of_findSome?_eq_some hfs
    simp only [id] at hob
    subst hob
    simp only [breakCandidates, List.mem_cons, List.not_mem_nil, or_false] at ho
    rcases ho with h | h | h | h | h | h | h <;> exact tryBreak_le h.symm

theorem pySlice_window_length_le (s : List Char) (a : Int) (cs : Nat) :
    (pySlice s a (a + cs)).length ≤ cs := by
  unfold pySlice pySliceIdx
  rw [List.length_drop, List.length_take]
  split_ifs <;> omega

theorem pySlice_all (s : List Char) (c : Int) (h : (s.length : Int) ≤ c) :
    pySlice s 0 c = s := by
  unfold pySlice pySliceIdx
  rw [if_neg (by omega : ¬ c < 0), if_neg (by omega : ¬ (0 : Int) < 0)]
  rw [show min (Int.toNat 0) s.length = 0 from by simp]
  rw [show min (Int.toNat c) s.length = s.length from by omega]
  simp

theorem smartEnd_le (cs : Nat) (text : List Char) (start : Int) :
    smartEnd cs text start ≤ start + cs := by
  unfold smartEnd
  dsimp only
  split_ifs with h1 h2
  · have hlen := pySlice_window_length_le text start cs
    have hbb := find_break_point_le (pySlice text start (start + cs))
    omega
  · omega
  · omega

theorem smartEnd_gt (cs : Nat) (text : List Char) (start : Int) (hcs : 0 < cs) :
    start < smartEnd cs text start := by
  unfold smartEnd
  dsimp only
  split_ifs with h1 h2
  · omega
  · omega
  · omega

theorem smartNext_advance (cs ov : Nat) (text : List Char) (start : Int)
    (hcs : 0 < cs) (hov : ov ≤ cs / 2) (h : start < (text.length : Int)) :
    start < smartNext cs ov text start := by
  unfold smartNext smartEnd
  dsimp only
  split_ifs with h1 h2
  · omega
  · omega
  · omega

theorem smartLoop_isSome (cs ov : Nat) (docId : String) (base : Int) (text : List Char)
    (hcs : 0 < cs) (hov : ov ≤ cs / 2) :
    ∀ (fuel : Nat) (start : Int), (text.length : Int) ≤ start + fuel →
      (smartLoop cs ov docId base text fuel start).isSome := by
  intro fuel
  induction fuel with
  | zero =>
    intro start h
    rw [smartLoop, if_neg (by omega)]
    simp
  | succ fuel ih =>
    intro start h
    rw [smartLoop]
    by_cases hlt : start < (text.length : Int)
    · rw [if_pos hlt]
      have hadv := smartNext_advance cs ov text start hcs hov hlt
      have hrec := ih (smartNext cs ov text start) (by omega)
      rcases hres : smartLoop cs ov docId base text fuel (smartNext cs ov text start)
        with _ | rest
      · rw [hres] at hrec; simp at hrec
      · simp [hres]
    · rw [if_neg hlt]; simp

theorem smartLoop_done (cs ov : Nat) (docId : String) (base : Int) (text : List Char) :
    ∀ (fuel : Nat) (start : Int), ¬ start < (text.length : Int) →
      smartLoop cs ov docId base text fuel start = some [] := by
  intro fuel start h
  cases fuel <;> rw [smartLoop, if_neg h]

theorem smartLoop_bounds (cs ov : Nat) (docId : String) (base : Int) (text : List Char)
    (hcs : 0 < cs) (hov : ov ≤ cs / 2) :
    ∀ (fuel : Nat) (start : Int) (res : List Chunk), 0 ≤ start →
      smartLoop cs ov docId base text fuel start = some res →
      ∀ c ∈ res, base ≤ c.start_idx ∧ c.start_idx < c.end_idx
        ∧ c.end_idx ≤ c.start_idx + cs ∧ c.start_idx < base + text.length := by
  intro fuel
  induction fuel with
  | zero =>
    intro start res hge h c hc
    rw [smartLoop] at h
    by_cases hlt : start < (text.length : Int)
    · rw [if_pos hlt] at h; cases h
    · rw [if_neg hlt] at h
      injection h with h
      subst h
      exact absurd hc (List.not_mem_nil c)
  | succ fuel ih =>
    intro start res hge h c hc
    rw [smartLoop] at h
    by_cases hlt : start < (text.length : Int)
    · rw [if_pos hlt] at h
      rcases hres : smartLoop cs ov docId base text fuel (smartNext cs ov text start)
        with _ | rest
      · rw [hres] at h; cases h
      · rw [hres] at h
        injection h with h
        subst h
        rcases List.mem_cons.mp hc with rfl | hcr
        · refine ⟨?_, ?_, ?_, ?_⟩
          · show base ≤ base + start
            omega
          · show base + start < base + smartEnd cs text start
            have := smartEnd_gt cs text start hcs
            omega
          · show base + smartEnd cs text start ≤ base + start + cs
            have := smartEnd_le cs text start
            omega
          · show base + start < base + (text.length : Int)
            omega
        · have hnext : 0 ≤ smartNext cs ov text start := by
            have := smartNext_advance cs ov text start hcs hov hlt
            omega
          exact ih _ rest hnext hres c hcr
    · rw [if_neg hlt] at h
      injection h with h
      subst h
      exact absurd hc (List.not_mem_nil c)

theorem vectorBreak_gt {ct : List Char} {b : Nat} (h : vectorBreak ct = some b) :
    250 < b := by
  unfold vectorBreak at h
  rcases h1 : tryBreak ['.', ' '] ct 250 with _ | b1
  · rw [h1] at h
    simp only [] at h
    rcases h2 : tryBreak ['。'] ct 250 with _ | b2
    · rw [h2] at h
      simp only [] at h
      rcases h3 : tryBreak ['\n', '\n'] ct 250 with _ | b3
      · rw [h3] at h
        simp only [] at h
        exact tryBreak_gt h
      · rw [h3] at h
        simp only [] at h
        injection h with h
        subst h
        exact tryBreak_gt h3
    · rw [h2] at h
      simp only [] at h
      injection h with h
      subst h
      exact tryBreak_gt h2
  · rw [h1] at h
    simp only [] at h
    injection h with h
    subst h
    exact tryBreak_gt h1

theorem vectorEnd_ge (text : List Char) (start : Nat) :
    start + 251 ≤ vectorEnd text start := by
  unfold vectorEnd
  dsimp only
  split_ifs with h1
  · rcases hb : vectorBreak (slice text start (start + 500)) with _ | b
    · simp [hb]
    · have := vectorBreak_gt hb
      simp only [hb]
      omega
  · omega

theorem vectorLoop_isSome (docId : String) (text : List Char) :
    ∀ (fuel start : Nat), text.length ≤ start + fuel →
      (vectorLoop docId text fuel start).isSome := by
  intro fuel
  induction fuel with
  | zero =>
    intro start h
    rw [vectorLoop, if_neg (by omega)]
    simp
  | succ fuel ih =>
    intro start h
    rw [vectorLoop]
    by_cases hlt : start < text.length
    · rw [if_pos hlt]
      have hadv := vectorEnd_ge text start
      have hrec := ih (vectorEnd text start - 100) (by omega)
      rcases hres : vectorLoop docId text fuel (vectorEnd text start - 100) with _ | rest
      · rw [hres] at hrec; simp at hrec
      · simp [hres]
    · rw [if_neg hlt]; simp

theorem vectorChunks_ne_nil (docId : String) (text : List Char) (h : text ≠ []) :
    vectorChunks docId text ≠ [] := by
  unfold vectorChunks
  have hlen : 0 < text.length := List.length_pos.mpr h
  obtain ⟨f, hf⟩ : ∃ f, text.length = f + 1 := ⟨text.length - 1, by omega⟩
  rw [hf, vectorLoop, if_pos (by omega)]
  have hadv := vectorEnd_ge text 0
  have hrec := vectorLoop_isSome docId text f (vectorEnd text 0 - 100) (by omega)
  rcases hres : vectorLoop docId text f (vectorEnd text 0 - 100) with _ | rest
  · rw [hres] at hrec; simp at hrec
  · simp [hres]

theorem bm25_index_chunks (hash : List Char → String) (s : BM25State) (d : Document) :
    (bm25IndexDocument hash s d).1.chunks
      = (if s.documents.any (fun r => r.id == d.id)
          then s.chunks.filter (fun r => !(r.doc_id == d.id)) else s.chunks)
        ++ bm25ChunkRows d := by
  unfold bm25IndexDocument bm25RemoveInternal
  dsimp only
  split_ifs <;> rfl

theorem bm25_index_documents (hash : List Char → String) (s : BM25State) (d : Document) :
    (bm25IndexDocument hash s d).1.documents
      = (if s.documents.any (fun r => r.id == d.id)
          then s.documents.filter (fun r => !(r.id == d.id)) else s.documents)
        ++ [bm25DocRow hash d] := by
  unfold bm25IndexDocument bm25RemoveInternal
  dsimp only
  split_ifs <;> rfl

theorem bm25ChunkRows_doc_id (d : Document) :
    ∀ r ∈ bm25ChunkRows d, r.doc_id = d.id := by
  intro r hr
  unfold bm25ChunkRows at hr
  obtain ⟨p, _, hpr⟩ := List.mem_map.mp hr
  rw [← hpr]

theorem bm25_double_index (hash : List Char → String) (s : BM25State) (d : Document)
    (hwf : ∀ c ∈ s.chunks, ∃ r ∈ s.documents, r.id = c.doc_id) :
    bm25ChunkCount (bm25IndexDocument hash (bm25IndexDocument hash s d).1 d).1
      = bm25ChunkCount (bm25IndexDocument hash s d).1 := by
  have hex2 : (bm25IndexDocument hash s d).1.documents.any (fun r => r.id == d.id) = true := by
    rw [bm25_index_documents, List.any_append]
    simp [bm25DocRow]
  have hrowsK : (bm25ChunkRows d).filter (fun r => !(r.doc_id == d.id)) = [] := by
    rw [List.filter_eq_nil_iff]
    intro r hr
    simp [bm25ChunkRows_doc_id d r hr]
  unfold bm25ChunkCount
  rw [bm25_index_chunks, if_pos hex2, bm25_index_chunks]
  by_cases hex : s.documents.any (fun r => r.id == d.id)
  · rw [if_pos hex, List.filter_append, hrowsK, List.append_nil, List.filter_filter,
      List.filter_congr (fun a _ => Bool.and_self _)]
  · rw [if_neg hex, List.filter_append, hrowsK, List.append_nil]
    have hall : s.chunks.filter (fun r => !(r.doc_id == d.id)) = s.chunks := by
      rw [List.filter_eq_self]
      intro r hr
      obtain ⟨doc, hdoc, hid⟩ := hwf r hr
      have hne : r.doc_id ≠ d.id := by
        intro he
        apply hex
        rw [List.any_eq_true]
        exact ⟨doc, hdoc, by simp [hid, he]⟩
      simp [hne]
    rw [hall]

theorem vector_double_index (s : VectorIndexState) (d : Document) (hc : d.content ≠ []) :
    vectorChunkCount (vectorIndexDocument (vectorIndexDocument s d).1 d).1
      = vectorChunkCount (vectorIndexDocument s d).1
        + (vectorChunks d.id d.content).length := by
  have hch := vectorChunks_ne_nil d.id d.content hc
  rcases s with ⟨_ | t⟩
  · simp [vectorIndexDocument, vectorChunkCount, hc, hch]
  · simp [vectorIndexDocument, vectorChunkCount, hc, hch]
    omega

theorem zip_truncates {α β : Type} : ∀ (ws : List β) (ls : List α),
    ls.zip ws = (ls.take ws.length).zip ws := by
  intro ws
  induction ws with
  | nil => intro ls; simp
  | cons w ws ih =>
    intro ls
    cases ls with
    | nil => simp
    | cons l ls =>
      simp only [List.length_cons, List.take_succ_cons, List.zip_cons_cons]
      rw [← ih ls]

theorem enum_map_proj {α β : Type} (l : List α) (g : α → β) :
    l.enum.map (fun p => g p.2) = l.map g := by
  rw [show (fun p : Nat × α => g p.2) = g ∘ Prod.snd from rfl, ← List.map_map,
    List.enum_map_snd]

/-- Sample fixture chunk used by the concrete theorems below. -/
def sampleChunkA : Chunk :=
  { id := "cA", doc_id := "docA", content := ['a'], start_idx := 0, end_idx := 1 }

/-- Second sample fixture chunk, distinct from the first one. -/
def sampleChunkB : Chunk :=
  { id := "cB", doc_id := "docB", content := ['b'], start_idx := 0, end_idx := 1 }

/-- Sample search result over the first fixture chunk. -/
def sampleResultA : SearchResult := { chunk := sampleChunkA, score := 1 }

/-- Sample search result over the second fixture chunk. -/
def sampleResultB : SearchResult := { chunk := sampleChunkB, score := 1 }

/-- Search result over the first fixture chunk with a chosen score. -/
def scoredA (q : ℚ) : SearchResult := { chunk := sampleChunkA, score := q }

/-- Search result over the second fixture chunk with a chosen score. -/
def scoredB (q : ℚ) : SearchResult := { chunk := sampleChunkB, score := q }

/-- Sample fixture document with one-character content. -/
def sampleDoc : Document :=
  { id := "doc1", source_path := "/tmp/a.md", file_name := "a.md", file_type := "md",
    content := ['a'] }

/-- C1 counterexample: the chunk with id cA sits at rank 0 in both fused
lists (weights 1 and 1, k 60, default bonuses); the code adds the 0.05
top-rank bonus once per contributing list, producing the fused score
2/61 + 0.05 + 0.05, not 2/61 + 0.05 as the claimed at-most-once mutually
exclusive bonus would give. -/
theorem C1_counterexample :
    (reciprocal_rank_fusion [[sampleResultA], [sampleResultA]] (some [1, 1]) 60 30
        0.05 0.02).map (fun fr => fr.rrf_score) = [2 / 61 + 0.05 + 0.05]
    ∧ ((2 : ℚ) / 61 + 0.05 + 0.05) ≠ 2 / 61 + 0.05 := by
  constructor
  · norm_num [reciprocal_rank_fusion, rrfAll, rrfList, upsert, rrfUpd, fusionKey,
      sortDesc, insertDesc, sampleResultA, sampleChunkA]
  · norm_num

/-- C1 (amended): with a weights list (zipped against the result lists), the
fused score of every returned chunk is the sum, over every zipped list and
every occurrence of the chunk in it, of weight/(k + rank + 1) plus a
per-occurrence bonus (tb at rank 0, else t3 at ranks 1 and 2); output
entries carry pairwise distinct dedup keys (chunk id, or docId_startOffset
when the id is empty), are sorted by fused score descending, and number at
most topN. -/
theorem C1_rrf_amended (result_lists : List (List SearchResult)) (ws : List ℚ)
    (k top_n : Nat) (tb t3 : ℚ) :
    (∀ fr ∈ reciprocal_rank_fusion result_lists (some ws) k top_n tb t3,
        fr.rrf_score = totalScore k tb t3 (fusionKey fr.result.chunk) (result_lists.zip ws))
    ∧ List.Pairwise (fun a b => b.rrf_score ≤ a.rrf_score)
        (reciprocal_rank_fusion result_lists (some ws) k top_n tb t3)
    ∧ (reciprocal_rank_fusion result_lists (some ws) k top_n tb t3).length ≤ top_n
    ∧ List.Pairwise (fun a b => fusionKey a.result.chunk ≠ fusionKey b.result.chunk)
        (reciprocal_rank_fusion result_lists (some ws) k top_n tb t3) := by
  refine ⟨?_, rrf_sorted result_lists (some ws) k top_n tb t3,
    rrf_length_le result_lists (some ws) k top_n tb t3,
    rrf_keys_pairwise result_lists ws k top_n tb t3⟩
  intro fr hfr
  exact (rrf_mem_spec result_lists ws k top_n tb t3 fr hfr).1

/-- C1 witness: the amended fusion specification applied at a concrete
two-list input. -/
theorem C1_rrf_amended_witness :
    (reciprocal_rank_fusion [[sampleResultA], [sampleResultB]] (some [2, 1]) 60 30
      0.05 0.02).length ≤ 30 :=
  (C1_rrf_amended [[sampleResultA], [sampleResultB]] [2, 1] 60 30 0.05 0.02).2.2.1

/-- C2: strong-signal detection at the default thresholds reports strong
exactly when the top score reaches 0.85 and the top1 minus top2 gap reaches
0.15; a single-result list is strong exactly when its score reaches 0.85;
the empty list is never strong; when the signal is strong, the hybrid search
core returns the lexical list truncated to topK, skipping fusion; and the
three concrete spec examples evaluate as stated (0.95/0.70 strong with gap
0.25, 0.90/0.85 not strong, 0.70/0.40 not strong). -/
theorem C2_strong_signal :
    (∀ (r1 r2 : SearchResult) (rest : List SearchResult),
        ((detect_strong_signal (r1 :: r2 :: rest) 0.85 0.15).is_strong = true
          ↔ (0.85 ≤ r1.score ∧ 0.15 ≤ r1.score - r2.score)))
    ∧ (∀ r : SearchResult,
        ((detect_strong_signal [r] 0.85 0.15).is_strong = true ↔ 0.85 ≤ r.score))
    ∧ (detect_strong_signal [] 0.85 0.15).is_strong = false
    ∧ (∀ (bm25 vec : List SearchResult) (top_k : Nat) (w1 w2 : ℚ),
        (detect_strong_signal bm25 0.85 0.15).is_strong = true →
        hybridSearchCore bm25 vec top_k true w1 w2 = bm25.take top_k)
    ∧ (detect_strong_signal [scoredA 0.95, scoredB 0.70] 0.85 0.15).is_strong = true
    ∧ (detect_strong_signal [scoredA 0.95, scoredB 0.70] 0.85 0.15).score_gap = 0.25
    ∧ (detect_strong_signal [scoredA 0.90, scoredB 0.85] 0.85 0.15).is_strong = false
    ∧ (detect_strong_signal [scoredA 0.70, scoredB 0.40] 0.85 0.15).is_strong = false := by
  refine ⟨?_, ?_, rfl, ?_, ?_, ?_, ?_, ?_⟩
  · intro r1 r2 rest
    simp [detect_strong_signal]
  · intro r
    simp [detect_strong_signal]
  · intro bm25 vec top_k w1 w2 h
    simp [hybridSearchCore, h]
  · norm_num [detect_strong_signal, scoredA, scoredB]
  · norm_num [detect_strong_signal, scoredA, scoredB]
  · norm_num [detect_strong_signal, scoredA, scoredB]
  · norm_num [detect_strong_signal, scoredA, scoredB]

/-- C2 witness: the short-circuit conjunct applied at the concrete strong
input from the spec examples. -/
theorem C2_strong_signal_witness :
    hybridSearchCore [scoredA 0.95, scoredB 0.70] [sampleResultB] 1 true 2 1
      = [scoredA 0.95, scoredB 0.70].take 1 :=
  C2_strong_signal.2.2.2.1 [scoredA 0.95, scoredB 0.70] [sampleResultB] 1 2 1
    C2_strong_signal.2.2.2.2.1

/-- C4: the position-aware blend equals w times the normalized RRF score
min(rrf times 2, 1) plus (1 - w) times the external score, with w 0.75 for
ranks 0 to 2, 0.60 for ranks 3 to 9 and 0.40 from rank 10 on; and the two
claimed orderings hold: with rrf 0.5 and external 0.3 rank 0 beats rank 10,
and with rrf 0.2 and external 0.9 rank 15 beats rank 0. -/
theorem C4_position_aware_blend (r e : ℚ) (rank : Nat) (h0 : 0 ≤ e) (h1 : e ≤ 1) :
    position_aware_blend r e rank
      = (if rank < 3 then (0.75 : ℚ) else if rank < 10 then 0.60 else 0.40)
          * min (r * 2) 1
        + (1 - (if rank < 3 then (0.75 : ℚ) else if rank < 10 then 0.60 else 0.40)) * e
    ∧ position_aware_blend 0.5 0.3 10 < position_aware_blend 0.5 0.3 0
    ∧ position_aware_blend 0.2 0.9 0 < position_aware_blend 0.2 0.9 15 := by
  refine ⟨?_, by norm_num [position_aware_blend], by norm_num [position_aware_blend]⟩
  unfold position_aware_blend
  dsimp only
  split_ifs <;> ring

/-- C4 witness: the blend ordering conjunct applied at a concrete in-range
external score. -/
theorem C4_position_aware_blend_witness :
    position_aware_blend 0.5 0.3 10 < position_aware_blend 0.5 0.3 0 :=
  (C4_position_aware_blend 0.5 0.3 0 (by norm_num) (by norm_num)).2.1

/-- C10: on the fusion path (no strong lexical signal), the hybrid search
core returns the stored SearchResults of the fused ranking: the output is
the projection of a FusionResult list sorted by fused score descending (the
fused score itself is dropped by the projection), and every returned result
is the first element of the concatenation lexical-then-semantic whose chunk
has the same dedup key, hence an original input result carrying its
index-local score. -/
theorem C10_hybrid_fusion_path (bm25 vec : List SearchResult) (top_k : Nat) (w1 w2 : ℚ)
    (h : (detect_strong_signal bm25 0.85 0.15).is_strong = false) :
    ∃ frs : List FusionResult,
      hybridSearchCore bm25 vec top_k true w1 w2 = frs.map (fun fr => fr.result)
      ∧ List.Pairwise (fun a b => b.rrf_score ≤ a.rrf_score) frs
      ∧ (∀ fr ∈ frs,
          (bm25 ++ vec).find? (fun r => fusionKey r.chunk == fusionKey fr.result.chunk)
            = some fr.result)
      ∧ ∀ r ∈ hybridSearchCore bm25 vec top_k true w1 w2, r ∈ bm25 ++ vec := by
  refine ⟨reciprocal_rank_fusion [bm25, vec] (some [w1, w2]) 60 top_k 0.05 0.02,
    ?_, rrf_sorted [bm25, vec] (some [w1, w2]) 60 top_k 0.05 0.02, ?_, ?_⟩
  · simp [hybridSearchCore, h]
  · intro fr hfr
    have hfirst := (rrf_mem_spec [bm25, vec] [w1, w2] 60 top_k 0.05 0.02 fr hfr).2
    simpa [firstHit] using hfirst
  · intro r hr
    rw [show hybridSearchCore bm25 vec top_k true w1 w2
        = (reciprocal_rank_fusion [bm25, vec] (some [w1, w2]) 60 top_k 0.05 0.02).map
            (fun fr => fr.result) by simp [hybridSearchCore, h]] at hr
    obtain ⟨fr, hfr, hfrr⟩ := List.mem_map.mp hr
    have hfirst := (rrf_mem_spec [bm25, vec] [w1, w2] 60 top_k 0.05 0.02 fr hfr).2
    have hmem : fr.result ∈ bm25 ++ (vec ++ []) :=
      List.mem_of_find?_eq_some hfirst
    rw [← hfrr]
    simpa using hmem

/-- C10 witness: the fusion-path description applied at a concrete
nonstrong input (empty lexical list). -/
theorem C10_hybrid_fusion_path_witness :
    ∃ frs : List FusionResult,
      hybridSearchCore [] [sampleResultB] 5 true 2 1 = frs.map (fun fr => fr.result)
      ∧ List.Pairwise (fun a b => b.rrf_score ≤ a.rrf_score) frs
      ∧ (∀ fr ∈ frs,
          (([] : List SearchResult) ++ [sampleResultB]).find?
              (fun r => fusionKey r.chunk == fusionKey fr.result.chunk)
            = some fr.result)
      ∧ ∀ r ∈ hybridSearchCore [] [sampleResultB] 5 true 2 1,
          r ∈ ([] : List SearchResult) ++ [sampleResultB] :=
  C10_hybrid_fusion_path [] [sampleResultB] 5 2 1 rfl

/-- C6 counterexample: constructing a chunker with overlap equal to
chunk size succeeds and stores the values verbatim (no error is raised at
configuration time); and fusion called with two result lists but a single
weight silently proceeds, returning a normal ranking built from the first
list only (the second list is dropped by zip). -/
theorem C6_counterexample :
    SmartChunker.init 10 10 true true
      = { chunk_size := 10, overlap := 10, respect_headings := true,
          respect_code_blocks := true }
    ∧ (reciprocal_rank_fusion [[sampleResultA], [sampleResultB]] (some [1]) 60 30
          0.05 0.02).map (fun fr => (fr.result, fr.rrf_score))
        = [(sampleResultA, 1 / 61 + 0.05)] := by
  constructor
  · rfl
  · norm_num [reciprocal_rank_fusion, rrfAll, rrfList, upsert, rrfUpd, fusionKey,
      sortDesc, insertDesc, sampleResultA, sampleChunkA]

/-- C6 (amended): no configuration-time validation exists.  Fusion with a
weights list shorter than the result lists silently truncates via zip,
behaving exactly as if only the first len(weights) lists had been passed;
and a chunker configured with overlap at least chunk size is constructed
without error, the failure surfacing only at chunk time where the window
start never advances. -/
theorem C6_no_validation_amended (lists : List (List SearchResult)) (ws : List ℚ)
    (k top_n : Nat) (tb t3 : ℚ) (cs ov : Nat) (text : List Char) (start : Int)
    (hlen : ws.length ≤ lists.length) (hov : cs ≤ ov) :
    reciprocal_rank_fusion lists (some ws) k top_n tb t3
      = reciprocal_rank_fusion (lists.take ws.length) (some ws) k top_n tb t3
    ∧ smartNext cs ov text start ≤ start
    ∧ (SmartChunker.init cs ov true true).overlap = ov := by
  refine ⟨?_, ?_, rfl⟩
  · rcases lists with _ | ⟨hd, tl⟩
    · rw [List.take_nil]
    · rcases ws with _ | ⟨w, ws2⟩
      · simp [reciprocal_rank_fusion, rrfAll, sortDesc]
      · rw [show ((hd :: tl).take (w :: ws2).length) = hd :: tl.take ws2.length from by
          simp [List.take_succ_cons]]
        rw [reciprocal_rank_fusion, reciprocal_rank_fusion]
        simp only [Option.getD_some]
        rw [zip_truncates (w :: ws2) (hd :: tl)]
        simp [List.take_succ_cons]
  · have hle := smartEnd_le cs text start
    unfold smartNext
    omega

/-- C6 witness: the amended no-validation facts applied at one mismatched
fusion input and the overlap-equal-to-chunk-size configuration. -/
theorem C6_no_validation_amended_witness :
    reciprocal_rank_fusion [[sampleResultA], [sampleResultB]] (some [1]) 60 30 0.05 0.02
      = reciprocal_rank_fusion ([[sampleResultA], [sampleResultB]].take 1) (some [1])
          60 30 0.05 0.02 :=
  (C6_no_validation_amended [[sampleResultA], [sampleResultB]] [1] 60 30 0.05 0.02
    10 10 ['a'] 0 (by norm_num) (by norm_num)).1

/-- Text on which the window start goes negative: the newline at index 6 of
the first ten-character window gives break point 7, so with chunk size 10
and overlap 8 the next start is 7 - 8 = -1, and the loop then emits a chunk
with start offset -1 (and later chunks with end offsets past the text
length) before terminating. -/
def negText : List Char := ("abcdef
ghiX").toList

/-- C5 counterexample: with chunk size 10 and overlap 8 on negText the
generic route returns chunks among which one has startOffset -1 < 0 and one
has endOffset 19 > len(text) = 11, so not every chunk returned by chunk
satisfies 0 <= startOffset < endOffset <= len(text). -/
theorem C5_counterexample :
    ¬ ∀ ch ∈ ((SmartChunker.init 10 8 true true).chunkText negText "d").getD [],
        0 ≤ ch.start_idx ∧ ch.start_idx < ch.end_idx
          ∧ ch.end_idx ≤ (negText.length : Int) := by
  decide

/-- C5 (amended): under the window-advance precondition 0 < chunkSize and
overlap ≤ chunkSize / 2, every chunk produced by the generic text route
satisfies 0 ≤ startOffset < endOffset ≤ startOffset + chunkSize with
startOffset < len(text); the end offset is the unclamped window end, so on
the final window it may exceed len(text) by up to chunkSize - 1.  Without
the overlap bound the claim fails twice over: the next window start
end - overlap can go below zero, emitting a chunk with negative
startOffset (see the counterexample). -/
theorem C5_chunk_bounds_amended (c : SmartChunker) (text : List Char) (docId : String)
    (res : List Chunk) (hcs : 0 < c.chunk_size) (hov : c.overlap ≤ c.chunk_size / 2)
    (h : c.chunkText text docId = some res) :
    ∀ ch ∈ res, 0 ≤ ch.start_idx ∧ ch.start_idx < ch.end_idx
      ∧ ch.end_idx ≤ ch.start_idx + c.chunk_size
      ∧ ch.start_idx < (text.length : Int) := by
  unfold SmartChunker.chunkText at h
  split_ifs at h with hempty
  · injection h with h
    subst h
    intro ch hch
    exact absurd hch (List.not_mem_nil ch)
  · unfold smartChunkText at h
    intro ch hch
    have hb := smartLoop_bounds c.chunk_size c.overlap docId 0 text hcs hov
      text.length 0 res (le_refl 0) h ch hch
    exact ⟨hb.1, hb.2.1, hb.2.2.1, by simpa using hb.2.2.2⟩

/-- C5 witness: the amended bounds applied to the single chunk of a
one-character text under chunk size 4 and overlap 2. -/
theorem C5_chunk_bounds_amended_witness :
    (0 : Int) ≤ 0 ∧ (0 : Int) < 4
      ∧ (4 : Int) ≤ 0 + ((SmartChunker.init 4 2 true true).chunk_size : Int)
      ∧ (0 : Int) < ((['a'] : List Char).length : Int) :=
  C5_chunk_bounds_amended (SmartChunker.init 4 2 true true) ['a'] "d"
    [{ id := "", doc_id := "d", content := ['a'], start_idx := 0, end_idx := 4 }]
    (by decide) (by decide) (by decide) ⟨"", "d", ['a'], 0, 4⟩ (by decide)

/-- Text exhibiting a stalling window: a paragraph break at character 6 of
the first ten-character window yields break point 8, so with chunk size 10
and overlap 8 the next start is 8 - 8 = 0 again. -/
def stallText : List Char := ("abcdef\n\nxyzabcdefghij").toList

/-- C7 counterexample: chunk size 10 with overlap 8 satisfies the claimed
precondition overlap < chunkSize, yet on stallText the window start does
not advance from 0 (next start is again 0), and the fueled loop model of
_chunk_text exhausts its fuel without terminating. -/
theorem C7_counterexample :
    (8 < 10) ∧ 0 < stallText.length ∧ smartNext 10 8 stallText 0 = 0
      ∧ smartChunkText 10 8 "d" 0 stallText = none := by
  exact ⟨by norm_num, by decide, by decide, by decide⟩

/-- C7 (amended): under the stronger precondition overlap ≤ chunkSize / 2
(and 0 < chunkSize) the window start strictly advances on every iteration,
so the loop terminates within len(text) iterations and chunking returns a
finite list. -/
theorem C7_advance_amended (cs ov : Nat) (docId : String) (base : Int) (text : List Char)
    (hcs : 0 < cs) (hov : ov ≤ cs / 2) :
    (∀ start : Int, start < (text.length : Int) → start < smartNext cs ov text start)
    ∧ (smartChunkText cs ov docId base text).isSome := by
  refine ⟨fun start h => smartNext_advance cs ov text start hcs hov h, ?_⟩
  unfold smartChunkText
  exact smartLoop_isSome cs ov docId base text hcs hov text.length 0 (by omega)

/-- C7 witness: the amended advance and termination facts at chunk size 4,
overlap 2, on a one-character text. -/
theorem C7_advance_amended_witness :
    (smartChunkText 4 2 "d" 0 ['a']).isSome :=
  (C7_advance_amended 4 2 "d" 0 ['a'] (by decide) (by decide)).2

/-- C8 counterexample: the three-character input abc has length at most the
target size 4, yet with overlap 2 the generic route returns two chunks (the
window restarts at 4 - 2 = 2 < 3), not one chunk spanning the whole text. -/
theorem C8_counterexample :
    (['a', 'b', 'c'] : List Char).length ≤ 4
    ∧ (SmartChunker.init 4 2 true true).chunkText ['a', 'b', 'c'] "d"
        = some [{ id := "", doc_id := "d", content := ['a', 'b', 'c'], start_idx := 0,
                  end_idx := 4 },
                { id := "", doc_id := "d", content := ['c'], start_idx := 2, end_idx := 6 }]
    ∧ ([{ id := "", doc_id := "d", content := ['a', 'b', 'c'], start_idx := 0,
          end_idx := 4 },
        { id := "", doc_id := "d", content := ['c'], start_idx := 2,
          end_idx := 6 }] : List Chunk).length ≠ 1 := by
  decide

/-- C8 (amended): empty or whitespace-only input yields the empty chunk
sequence (the guard precedes routing); the BM25 chunker returns one chunk
spanning the whole content whenever the content fits the window; and the
generic SmartChunker route returns exactly one chunk, whose content is the
stripped whole text, only under the stronger bound
len(text) ≤ chunkSize - overlap. -/
theorem C8_edge_cases_amended :
    (∀ (c : SmartChunker) (text : List Char) (docId : String),
        strip text = [] → c.chunkText text docId = some [])
    ∧ (∀ (d : Document) (cs ov : Nat), d.content.length ≤ cs →
        bm25ChunkContent d cs ov
          = some [{ id := "", doc_id := d.id, content := d.content, start_idx := 0,
                    end_idx := d.content.length }])
    ∧ (∀ (cs ov : Nat) (docId : String) (base : Int) (text : List Char),
        0 < text.length → text.length ≤ cs - ov →
        smartChunkText cs ov docId base text
          = some [{ id := "", doc_id := docId, content := strip text, start_idx := base,
                    end_idx := base + cs }]) := by
  refine ⟨?_, ?_, ?_⟩
  · intro c text docId h
    unfold SmartChunker.chunkText
    rw [if_pos]
    simp [h]
  · intro d cs ov h
    unfold bm25ChunkContent
    rw [if_pos h]
  · intro cs ov docId base text h1 h2
    obtain ⟨f, hf⟩ : ∃ f, text.length = f + 1 := ⟨text.length - 1, by omega⟩
    unfold smartChunkText
    rw [hf, smartLoop, if_pos (by omega)]
    have hend : smartEnd cs text 0 = (cs : Int) := by
      unfold smartEnd
      dsimp only
      rw [if_neg (by omega)]
      omega
    have hnext : smartNext cs ov text 0 = (cs : Int) - (ov : Int) := by
      unfold smartNext
      rw [hend]
    rw [hnext, smartLoop_done cs ov docId base text f ((cs : Int) - (ov : Int)) (by omega)]
    simp [hend, pySlice_all text (cs : Int) (by omega)]

/-- C8 witness: the one-chunk case applied to a one-character text with
chunk size 4 and overlap 2. -/
theorem C8_edge_cases_amended_witness :
    smartChunkText 4 2 "d" 0 ['a']
      = some [{ id := "", doc_id := "d", content := strip ['a'], start_idx := 0,
                end_idx := 0 + 4 }] :=
  C8_edge_cases_amended.2.2 4 2 "d" 0 ['a'] (by decide) (by decide)

/-- C3 counterexample: indexing the one-character sample document twice in a
fresh vector index leaves two stored chunks, not one: the second call
appends the freshly chunked rows without removing the rows of the same doc
id, so stats total chunks is not unchanged by the second call. -/
theorem C3_counterexample :
    vectorChunkCount (vectorIndexDocument ⟨none⟩ sampleDoc).1 = 1
    ∧ vectorChunkCount
        (vectorIndexDocument (vectorIndexDocument ⟨none⟩ sampleDoc).1 sampleDoc).1 = 2
    ∧ (2 : Nat) ≠ 1 := by
  refine ⟨by decide, by decide, by decide⟩

/-- C3 (amended): re-indexing the same document id is idempotent for the
lexical index chunk count (delete-then-insert, assuming the foreign-key
invariant that every stored chunk row references a stored document row),
but in the vector index a second indexDocument call appends the chunk rows
again, increasing total chunks by the document chunk count, which is
positive for nonempty content. -/
theorem C3_reindex_amended (hash : List Char → String) (s : BM25State)
    (v : VectorIndexState) (d : Document)
    (hwf : ∀ c ∈ s.chunks, ∃ r ∈ s.documents, r.id = c.doc_id)
    (hc : d.content ≠ []) :
    bm25ChunkCount (bm25IndexDocument hash (bm25IndexDocument hash s d).1 d).1
      = bm25ChunkCount (bm25IndexDocument hash s d).1
    ∧ vectorChunkCount (vectorIndexDocument (vectorIndexDocument v d).1 d).1
        = vectorChunkCount (vectorIndexDocument v d).1
          + (vectorChunks d.id d.content).length
    ∧ 0 < (vectorChunks d.id d.content).length := by
  refine ⟨bm25_double_index hash s d hwf, vector_double_index v d hc, ?_⟩
  exact List.length_pos.mpr (vectorChunks_ne_nil d.id d.content hc)

/-- C3 witness: the amended re-indexing facts applied to the sample document
over the empty lexical state and the fresh vector state. -/
theorem C3_reindex_amended_witness :
    bm25ChunkCount (bm25IndexDocument (fun _ => "h")
        (bm25IndexDocument (fun _ => "h") ⟨[], [], []⟩ sampleDoc).1 sampleDoc).1
      = bm25ChunkCount (bm25IndexDocument (fun _ => "h") ⟨[], [], []⟩ sampleDoc).1 :=
  (C3_reindex_amended (fun _ => "h") ⟨[], [], []⟩ ⟨none⟩ sampleDoc
    (fun c hc => absurd hc (List.not_mem_nil c)) (by decide)).1

/-- Sample stored row of the vector table. -/
def sampleVRow : VRow :=
  { id := "v1", doc_id := "docA", content := ['a'], start_idx := 0, end_idx := 1,
    file_name := "a.md", file_type := "md" }

/-- C9 counterexample: with one stored row, a failing embedding or vector
search attempt and a failing full-text fallback, search returns the first
stored rows as substitute results, not the empty list. -/
theorem C9_counterexample :
    vectorSearchModel (some [sampleVRow]) (Except.error "embed failure")
        (Except.error "fts failure") 5 ≠ [] := by
  simp [vectorSearchModel]

/-- C9 (amended): semantic search returns the empty list only when the
table does not exist; when the primary embed-and-search attempt fails it
falls back to a full-text search of the table, and when that also fails it
returns results built from the first topK stored rows, which is nonempty
whenever the table has rows and topK is positive. -/
theorem C9_degrade_amended (e1 e2 : String) (top_k : Nat) :
    (∀ primary fts : Except String (List (VRow × Option ℚ)),
        vectorSearchModel none primary fts top_k = [])
    ∧ (∀ rows : List VRow,
        (vectorSearchModel (some rows) (Except.error e1) (Except.error e2) top_k).map
            (fun r => r.chunk.id)
          = (rows.take top_k).map (fun r => r.id))
    ∧ (∀ rows : List VRow, rows ≠ [] → 0 < top_k →
        vectorSearchModel (some rows) (Except.error e1) (Except.error e2) top_k ≠ []) := by
  refine ⟨?_, ?_, ?_⟩
  · intro primary fts
    rfl
  · intro rows
    simp only [vectorSearchModel]
    rw [List.map_map]
    have h1 := enum_map_proj ((rows.take top_k).map (fun r => (r, (none : Option ℚ))))
      (fun q => q.1.id)
    rw [show ((fun r : SearchResult => r.chunk.id) ∘ (fun p : Nat × (VRow × Option ℚ) =>
        ({ chunk := { id := p.2.1.id, doc_id := p.2.1.doc_id, content := p.2.1.content,
                      start_idx := p.2.1.start_idx, end_idx := p.2.1.end_idx }
           score := match p.2.2 with
             | some dq => 1 / (1 + dq)
             | none => 1 / (1 + (p.1 : ℚ)) } : SearchResult)))
        = (fun p : Nat × (VRow × Option ℚ) => p.2.1.id) from rfl]
    rw [show (fun p : Nat × (VRow × Option ℚ) => p.2.1.id)
        = (fun p : Nat × (VRow × Option ℚ) => (fun q : VRow × Option ℚ => q.1.id) p.2)
        from rfl]
    rw [h1, List.map_map]
    rfl
  · intro rows hrows htop hempty
    have hlen : (vectorSearchModel (some rows) (Except.error e1) (Except.error e2)
        top_k).length = min top_k rows.length := by
      simp [vectorSearchModel, List.length_take]
    rw [hempty] at hlen
    have h1 : 0 < rows.length := List.length_pos.mpr hrows
    simp at hlen
    omega

/-- C9 witness: the substitute-results conjunct applied at one stored row
with topK 3. -/
theorem C9_degrade_amended_witness :
    vectorSearchModel (some [sampleVRow]) (Except.error "embed boom")
        (Except.error "fts boom") 3 ≠ [] :=
  (C9_degrade_amended "embed boom" "fts boom" 3).2.2 [sampleVRow]
    (by simp) (by norm_num)

end AIMidLayer
